import Mathlib

/-!
Verification of the mask-to-zarr conversion logic of `omero_zarr/masks.py`.

The Python source is shallowly embedded: numpy arrays become total functions
from index tuples to `Int`, the mutable in-place writes become explicit state
passing, and the exceptions raised by the write loops become `Except` values
whose error payload carries the array state at the moment of the raise (the
source performs no rollback, so the partially written state is observable).
-/

set_option maxRecDepth 4000

namespace OmeroZarr

/-- One OMERO mask shape (`MaskI`): optional T/C/Z plane coordinates
(`None` = applies to every plane of the axis), rectangle origin and extent,
the packed big-endian bit buffer (as a list of byte values), and an optional
fill color. -/
structure MaskShape where
  theT : Option Nat
  theC : Option Nat
  theZ : Option Nat
  x : Nat
  y : Nat
  w : Nat
  h : Nat
  bytes : List Nat
  fillColor : Option Int
  deriving DecidableEq

/-- Index into the 5-dimensional (T, C, Z, Y, X) label array. -/
structure Ix5 where
  t : Nat
  c : Nat
  z : Nat
  y : Nat
  x : Nat
  deriving DecidableEq

/-- Index into the 6-dimensional (group, T, C, Z, Y, X) stacked array. -/
structure Ix6 where
  g : Nat
  t : Nat
  c : Nat
  z : Nat
  y : Nat
  x : Nat

/-- A dense 5-D array, modelled as a total function on indices. -/
def Arr5 : Type := Ix5 → Int

/-- A dense 6-D array, modelled as a total function on indices. -/
def Arr6 : Type := Ix6 → Int

/-- The all-zero 5-D array (`np.zeros` / a freshly created zarr dataset). -/
def zeroArr : Arr5 := fun _ => 0

/-- The all-zero 6-D array. -/
def zeroArr6 : Arr6 := fun _ => 0

/-- The numpy dtypes selectable through `MASK_DTYPE_SIZE` in the source:
`np.bool` for 1 bit, signed integers for 8/16/32/64 bits. -/
inductive Dtype where
  | bool
  | int8
  | int16
  | int32
  | int64
  deriving DecidableEq

/-- Value stored when an integer is written into an array of the given dtype:
signed integers wrap modulo 2^bits, a boolean store keeps truthiness
(this is the `astype` cast the array store applies to incoming values). -/
def Dtype.cast : Dtype → Int → Int
  | .bool, v => if v = 0 then 0 else 1
  | .int8, v => (v + 2 ^ 7) % 2 ^ 8 - 2 ^ 7
  | .int16, v => (v + 2 ^ 15) % 2 ^ 16 - 2 ^ 15
  | .int32, v => (v + 2 ^ 31) % 2 ^ 32 - 2 ^ 31
  | .int64, v => (v + 2 ^ 63) % 2 ^ 64 - 2 ^ 63

/-- `MASK_DTYPE_SIZE`: the bit-depth to dtype mapping; absent keys mean the
lookup in the source raises `KeyError`. -/
def MASK_DTYPE_SIZE (bits : Nat) : Option Dtype :=
  if bits = 1 then some .bool
  else if bits = 8 then some .int8
  else if bits = 16 then some .int16
  else if bits = 32 then some .int32
  else if bits = 64 then some .int64
  else none

/-- The dtype `image_masks_to_zarr` ends up using: the `MASK_DTYPE_SIZE`
lookup, downgraded to 64-bit integers exactly when the style is `"labeled"`
and the requested bit depth is 1. -/
def chosenDtype (style : String) (labelBits : Nat) : Option Dtype :=
  (MASK_DTYPE_SIZE labelBits).map
    (fun d => if style = "labeled" ∧ labelBits = 1 then Dtype.int64 else d)

/-- `DIMENSION_ORDER`: position of each named axis in the 5-D shape. -/
def DIMENSION_ORDER (d : String) : Nat :=
  if d = "T" then 0
  else if d = "C" then 1
  else if d = "Z" then 2
  else if d = "Y" then 3
  else 4

/-- `np.unpackbits` on the byte buffer: each byte expands to its eight bits,
most significant bit first. -/
def unpackbits (bytes : List Nat) : List Nat :=
  bytes.flatMap (fun b => (List.range 8).map (fun k => b / 2 ^ (7 - k) % 2))

/-- Row-major reshape of a flat list into `h` rows of width `w`
(`np.reshape(_, (h, w))` on a list of exactly `h * w` elements). -/
def toRows (w : Nat) : Nat → List Nat → List (List Nat)
  | 0, _ => []
  | hh + 1, l => l.take w :: toRows w hh (l.drop w)

/-- `MaskSaver._mask_to_binim_yx`, decoding part: unpack the byte buffer,
truncate to the first `w * h` bits, and reshape row-major into `(h, w)`.
`np.reshape` demands that the truncated list have exactly `w * h` elements;
when the buffer holds fewer bits the source raises `ValueError`, modelled
here as `none`.  (The returned `(t, c, z, y, x, h, w)` tuple of the source
is read directly off the `MaskShape` fields.) -/
def mask_to_binim_yx (m : MaskShape) : Option (List (List Nat)) :=
  let binarray := (unpackbits m.bytes).take (m.w * m.h)
  if binarray.length = m.w * m.h then some (toRows m.w m.h binarray) else none

/-- Value of the decoded binary plane of a mask at row `j`, column `i`
(0 when decoding fails or the position is outside the plane). -/
def decodedBit (m : MaskShape) (j i : Nat) : Nat :=
  match mask_to_binim_yx m with
  | some b => (b.getD j []).getD i 0
  | none => 0

/-- `MaskSaver._get_indices`: the plane indices of one axis that a mask is
copied to. Collapsed (ignored) axes map to `[0]` regardless of the declared
value, a declared value maps to itself, and an undeclared value on a live
axis broadcasts to every plane of the axis. -/
def get_indices (ignored_dimensions : List String) (d : String)
    (d_value : Option Nat) (d_size : Nat) : List Nat :=
  if ignored_dimensions.contains d then [0]
  else
    match d_value with
    | some v => [v]
    | none => List.range d_size

/-- The `(t, c, z)` triples visited by the nested T/C/Z loops of
`masks_to_labels` and `stack_masks` for one mask, in loop order. -/
def planesOf (ign : List String) (size_t size_c size_z : Nat)
    (m : MaskShape) : List (Nat × Nat × Nat) :=
  (get_indices ign "T" m.theT size_t).flatMap (fun it =>
    (get_indices ign "C" m.theC size_c).flatMap (fun ic =>
      (get_indices ign "Z" m.theZ size_z).map (fun iz => (it, ic, iz))))

/-- The mask's rectangle `[y : y + h, x : x + w]` contains the Y/X
coordinates of the index. -/
def inRect (m : MaskShape) (q : Ix5) : Prop :=
  m.y ≤ q.y ∧ q.y < m.y + m.h ∧ m.x ≤ q.x ∧ q.x < m.x + m.w

instance (m : MaskShape) (q : Ix5) : Decidable (inRect m q) := by
  unfold inRect; infer_instance

/-- The region write `labels[i_t, i_c, i_z, y : y + h, x : x + w] += binim * v`
followed by the dtype cast the array store applies. -/
def addPlane (dt : Dtype) (L : Arr5) (it ic iz : Nat) (m : MaskShape)
    (b : List (List Nat)) (v : Int) : Arr5 :=
  fun q =>
    if q.t = it ∧ q.c = ic ∧ q.z = iz ∧ inRect m q then
      dt.cast (L q + ((b.getD (q.y - m.y) []).getD (q.x - m.x) 0 : Int) * v)
    else L q

/-- The overlap test of `masks_to_labels`:
`np.any(np.logical_and(region.astype(bool), binim))` on the destination
region of one plane. -/
def hasOverlap (L : Arr5) (it ic iz : Nat) (m : MaskShape)
    (b : List (List Nat)) : Bool :=
  decide (∃ j < m.h, ∃ i < m.w,
    L ⟨it, ic, iz, m.y + j, m.x + i⟩ ≠ 0 ∧ (b.getD j []).getD i 0 ≠ 0)

/-- Errors raised inside `masks_to_labels`: the overlap `Exception` naming
the offending object's 0-based ordinal, or the `ValueError` of a failed
reshape.  Both carry the array state at the raise (no rollback happens). -/
inductive LabelsErr where
  | overlap (count : Nat) (state : Arr5)
  | badReshape (count : Nat) (state : Arr5)

/-- The innermost loops of `masks_to_labels` over the `(t, c, z)` triples of
one mask: check the region for overlap (when enabled), raise on conflict,
otherwise add `binim * (count + 1)` into the region and continue. -/
def writePlanes (dt : Dtype) (check : Bool) (count : Nat) (m : MaskShape)
    (b : List (List Nat)) :
    List (Nat × Nat × Nat) → Arr5 → Except LabelsErr Arr5
  | [], L => .ok L
  | (it, ic, iz) :: ps, L =>
    if check && hasOverlap L it ic iz m b then
      .error (.overlap count L)
    else
      writePlanes dt check count m b ps
        (addPlane dt L it ic iz m b ((count : Int) + 1))

/-- Processing of one mask inside `masks_to_labels`: decode, then write to
every broadcast plane. -/
def writeMask (dt : Dtype) (check : Bool) (size_t size_c size_z : Nat)
    (ign : List String) (count : Nat) (m : MaskShape) (L : Arr5) :
    Except LabelsErr Arr5 :=
  match mask_to_binim_yx m with
  | none => .error (.badReshape count L)
  | some b => writePlanes dt check count m b (planesOf ign size_t size_c size_z m) L

/-- The loop of `masks_to_labels` over the shapes of one ROI (all shapes of a
ROI share the same `count`). -/
def writeShapes (dt : Dtype) (check : Bool) (size_t size_c size_z : Nat)
    (ign : List String) (count : Nat) :
    List MaskShape → Arr5 → Except LabelsErr Arr5
  | [], L => .ok L
  | m :: rest, L =>
    match writeMask dt check size_t size_c size_z ign count m L with
    | .error e => .error e
    | .ok L1 => writeShapes dt check size_t size_c size_z ign count rest L1

/-- The outer `enumerate(masks)` loop of `masks_to_labels`, starting at the
given ordinal. -/
def writeRois (dt : Dtype) (check : Bool) (size_t size_c size_z : Nat)
    (ign : List String) (count : Nat) :
    List (List MaskShape) → Arr5 → Except LabelsErr Arr5
  | [], L => .ok L
  | shapes :: rest, L =>
    match writeShapes dt check size_t size_c size_z ign count shapes L with
    | .error e => .error e
    | .ok L1 => writeRois dt check size_t size_c size_z ign (count + 1) rest L1

/-- `MaskSaver.masks_to_labels`: composite every ROI's masks additively as
`binim * (count + 1)` into the label array, raising on overlap when
`check_overlaps` is set.  `mask_shape` is the 5-tuple whose first three
entries are the (possibly collapsed) T/C/Z extents.  (The fill-color
attribute accumulation does not affect the array contents and is not
modelled.) -/
def masks_to_labels (dt : Dtype) (masks : List (List MaskShape))
    (mask_shape : List Nat) (ign : List String) (check_overlaps : Bool)
    (labels : Arr5) : Except LabelsErr Arr5 :=
  writeRois dt check_overlaps (mask_shape.getD 0 0) (mask_shape.getD 1 0)
    (mask_shape.getD 2 0) ign 0 masks labels

/-- The pixel set of one mask restricted to a given plane list: the plane is
among the listed `(t, c, z)` triples, the Y/X coordinates fall inside the
mask's rectangle, and the decoded bit there is set. -/
def pixP (m : MaskShape) (ps : List (Nat × Nat × Nat)) (q : Ix5) : Prop :=
  (q.t, q.c, q.z) ∈ ps ∧ inRect m q ∧ decodedBit m (q.y - m.y) (q.x - m.x) ≠ 0

/-- The full pixel set of a mask: its set bits, broadcast across every plane
`_get_indices` directs it to. -/
def pixOf (ign : List String) (size_t size_c size_z : Nat) (m : MaskShape)
    (q : Ix5) : Prop :=
  pixP m (planesOf ign size_t size_c size_z m) q

/-- Two masks claim no common pixel. -/
def pixDisjoint (ign : List String) (size_t size_c size_z : Nat)
    (m1 m2 : MaskShape) : Prop :=
  ∀ q : Ix5, pixOf ign size_t size_c size_z m1 q →
    ¬ pixOf ign size_t size_c size_z m2 q

/-- `unique_dims` of `MaskSaver.save` for one axis: the set of declared
values across every mask of the grouping, modelled as a deduplicated list. -/
def uniqueDims (f : MaskShape → Option Nat) (masks : List (List MaskShape)) :
    List (Option Nat) :=
  ((masks.flatMap id).map f).dedup

/-- The accessor for the declared value of a named axis. -/
def axisVal (d : String) (m : MaskShape) : Option Nat :=
  if d = "T" then m.theT else if d = "C" then m.theC else m.theZ

/-- `ignored_dimensions` of `MaskSaver.save`: the axes whose set of declared
values is exactly `{None}`. -/
def ignoredDimensions (masks : List (List MaskShape)) : List String :=
  ["T", "C", "Z"].filter (fun d => uniqueDims (axisVal d) masks = [none])

/-- The `mask_shape` computation of `MaskSaver.save`.  The source assigns
`mask_shape = tuple(_mask_shape)` only inside the loop over
`ignored_dimensions`, so when that set is empty the name is never bound
(`UnboundLocalError` at first use), modelled as `none`. -/
def computeMaskShape (imageShape : List Nat) (ignored : List String) :
    Option (List Nat) :=
  (ignored.foldl
    (fun acc d =>
      let ms := acc.1.set (DIMENSION_ORDER d) 1
      (ms, some ms))
    (imageShape, (none : Option (List Nat)))).2

/-- The shape of the dataset `MaskSaver.save` creates: the collapsed 5-tuple
for styles `"labeled"` and `"split"`, that tuple with a leading group count
for style `"6d"`, and `none` where the source raises (unbound `mask_shape`,
or the `assert` on an unknown style). -/
def saveShape (style : String) (imageShape : List Nat)
    (ignored : List String) (numGroups : Nat) : Option (List Nat) :=
  match computeMaskShape imageShape ignored with
  | none => none
  | some ms =>
    if style = "labeled" ∨ style = "split" then some ms
    else if style = "6d" then some (numGroups :: ms) else none

/-- Error raised inside `stack_masks` (only a failed reshape can raise; the
`check_overlaps` parameter is never consulted there). -/
inductive StackErr where
  | badReshape (count : Nat) (state : Arr6)

/-- The region write of `stack_masks`:
`target[count, i_t, i_c, i_z, y : y + h, x : x + w] += binim`. -/
def addPlane6 (dt : Dtype) (T : Arr6) (g it ic iz : Nat) (m : MaskShape)
    (b : List (List Nat)) : Arr6 :=
  fun q =>
    if q.g = g ∧ q.t = it ∧ q.c = ic ∧ q.z = iz ∧
        m.y ≤ q.y ∧ q.y < m.y + m.h ∧ m.x ≤ q.x ∧ q.x < m.x + m.w then
      dt.cast (T q + ((b.getD (q.y - m.y) []).getD (q.x - m.x) 0 : Int))
    else T q

/-- The innermost loops of `stack_masks`: plain additive writes, with no
overlap test of any kind. -/
def stackPlanes (dt : Dtype) (g : Nat) (m : MaskShape)
    (b : List (List Nat)) : List (Nat × Nat × Nat) → Arr6 → Arr6
  | [], T => T
  | (it, ic, iz) :: ps, T =>
    stackPlanes dt g m b ps (addPlane6 dt T g it ic iz m b)

/-- The loop of `stack_masks` over the shapes of one group. -/
def stackShapes (dt : Dtype) (size_t size_c size_z : Nat)
    (ign : List String) (g : Nat) :
    List MaskShape → Arr6 → Except StackErr Arr6
  | [], T => .ok T
  | m :: rest, T =>
    match mask_to_binim_yx m with
    | none => .error (.badReshape g T)
    | some b =>
      stackShapes dt size_t size_c size_z ign g rest
        (stackPlanes dt g m b (planesOf ign size_t size_c size_z m) T)

/-- The outer `enumerate(masks)` loop of `stack_masks`. -/
def stackRois (dt : Dtype) (size_t size_c size_z : Nat)
    (ign : List String) (g : Nat) :
    List (List MaskShape) → Arr6 → Except StackErr Arr6
  | [], T => .ok T
  | shapes :: rest, T =>
    match stackShapes dt size_t size_c size_z ign g shapes T with
    | .error e => .error e
    | .ok T1 => stackRois dt size_t size_c size_z ign (g + 1) rest T1

/-- `MaskSaver.stack_masks`: one leading slice per group, each mask's plain
binary plane added into its group's slice.  The `check_overlaps` parameter
is accepted, as in the source, but the body never reads it. -/
def stack_masks (dt : Dtype) (masks : List (List MaskShape))
    (mask_shape : List Nat) (target : Arr6) (ign : List String)
    (check_overlaps : Bool) : Except StackErr Arr6 :=
  stackRois dt (mask_shape.getD 0 0) (mask_shape.getD 1 0)
    (mask_shape.getD 2 0) ign 0 masks target

/-- Splitting a character list on commas (`str.split(",")`): every comma
starts a new field, so `"a,b"` gives two fields and `"oops"` gives one. -/
def splitOnCommaAux : List Char → List Char → List (List Char)
  | [], cur => [cur.reverse]
  | c :: cs, cur =>
    if c = ',' then cur.reverse :: splitOnCommaAux cs []
    else splitOnCommaAux cs (c :: cur)

/-- `str.split(",")` on a string. -/
def splitComma (s : String) : List String :=
  (splitOnCommaAux s.data []).map (fun cs => ⟨cs⟩)

/-- `str.strip()`: drop whitespace from both ends. -/
def strip (s : String) : String :=
  ⟨((s.data.dropWhile Char.isWhitespace).reverse.dropWhile
      Char.isWhitespace).reverse⟩

/-- Digit-string accumulator for `int(...)`. -/
def digitsToNat : List Char → Nat → Option Nat
  | [], acc => some acc
  | c :: cs, acc =>
    if c.isDigit then digitsToNat cs (acc * 10 + (c.toNat - 48)) else none

/-- `int(...)` on a non-negative decimal literal; anything else raises
(`ValueError`), modelled as `none`. -/
def parseIntNat (s : String) : Option Nat :=
  if s.data = [] then none else digitsToNat s.data 0

/-- One line of the external label-map file: strip, split on commas, and
require exactly the three fields `sid, name, roi`. -/
def parseLabelMapLine (line : String) : Option (String × String × String) :=
  match splitComma (strip line) with
  | [sid, name, roi] => some (sid, name, roi)
  | _ => none

/-- The label-map construction loop of `image_masks_to_zarr`, given the ROI
ids present on the image.  Appends `(name, roi_id)` per well-formed line; on
the first malformed line (bad split, unparsable id, or id not among the
image's ROIs) the exception is caught outside the loop, so the accumulator
keeps everything appended so far and the remaining lines are skipped.  The
returned flag records whether an error was caught. -/
def buildLabelMap (roiIds : List Nat) :
    List String → List (String × Nat) → List (String × Nat) × Bool
  | [], acc => (acc, false)
  | line :: rest, acc =>
    match parseLabelMapLine line with
    | none => (acc, true)
    | some (_, name, roi) =>
      match parseIntNat roi with
      | none => (acc, true)
      | some r =>
        if roiIds.contains r then
          buildLabelMap roiIds rest (acc ++ [(name, r)])
        else (acc, true)

/-- Grouping of the accumulated `(name, roi_id)` pairs into the
`defaultdict(list)` of the source, in insertion order. -/
def labelMapGroups (pairs : List (String × Nat)) : List (String × List Nat) :=
  pairs.foldl
    (fun acc p =>
      if acc.any (fun g => g.1 = p.1) then
        acc.map (fun g => if g.1 = p.1 then (g.1, g.2 ++ [p.2]) else g)
      else acc ++ [(p.1, [p.2])])
    []

/-- The array names `image_masks_to_zarr` goes on to save after parsing the
label-map file (one `saver.save` call per accumulated group, even when the
parse loop was aborted by a malformed line). -/
def labelMapSavedNames (roiIds : List Nat) (lines : List String) :
    List String :=
  (labelMapGroups (buildLabelMap roiIds lines []).1).map (fun g => g.1)

lemma length_unpackbits (bytes : List Nat) :
    (unpackbits bytes).length = 8 * bytes.length := by
  induction bytes with
  | nil => rfl
  | cons b bs ih =>
    simp only [unpackbits, List.flatMap_cons] at *
    simp [List.length_append, ih]
    omega

lemma unpackbits_cons (b : Nat) (bs : List Nat) :
    unpackbits (b :: bs) =
      (List.range 8).map (fun k => b / 2 ^ (7 - k) % 2) ++ unpackbits bs := by
  simp [unpackbits, List.flatMap_cons]

lemma unpackbits_getD (bytes : List Nat) (e : Nat)
    (he : e < 8 * bytes.length) :
    (unpackbits bytes).getD e 0 =
      bytes.getD (e / 8) 0 / 2 ^ (7 - e % 8) % 2 := by
  induction bytes generalizing e with
  | nil => simp at he
  | cons b bs ih =>
    rw [unpackbits_cons]
    by_cases h8 : e < 8
    · rw [List.getD_eq_getElem?_getD, List.getElem?_append]
      have hlen : ((List.range 8).map (fun k => b / 2 ^ (7 - k) % 2)).length = 8 := by
        simp
      rw [hlen]
      simp only [h8, if_pos]
      have he8 : e / 8 = 0 := Nat.div_eq_of_lt h8
      have hm8 : e % 8 = e := Nat.mod_eq_of_lt h8
      rw [List.getElem?_map]
      have : (List.range 8)[e]? = some e := by
        simp [List.getElem?_range, h8]
      rw [this, he8, hm8]
      simp
    · push_neg at h8
      rw [List.getD_eq_getElem?_getD, List.getElem?_append]
      have hlen : ((List.range 8).map (fun k => b / 2 ^ (7 - k) % 2)).length = 8 := by
        simp
      rw [hlen]
      simp only [Nat.not_lt_of_le h8, if_neg, not_lt.mpr h8, ite_false]
      rw [← List.getD_eq_getElem?_getD]
      have hlt : e - 8 < 8 * bs.length := by simp at he; omega
      rw [ih (e - 8) hlt]
      have hdiv : e / 8 = (e - 8) / 8 + 1 := by omega
      have hmod : e % 8 = (e - 8) % 8 := by omega
      rw [hdiv, hmod, List.getD_cons_succ]

lemma unpackbits_mem_le_one (bytes : List Nat) (v : Nat)
    (hv : v ∈ unpackbits bytes) : v ≤ 1 := by
  simp only [unpackbits, List.mem_flatMap, List.mem_map] at hv
  obtain ⟨b, -, k, -, rfl⟩ := hv
  have := Nat.mod_lt (b / 2 ^ (7 - k)) (show 0 < 2 by norm_num)
  omega

lemma getD_le_one (l : List Nat) (i : Nat) (h : ∀ v ∈ l, v ≤ 1) :
    l.getD i 0 ≤ 1 := by
  rw [List.getD_eq_getElem?_getD]
  cases hg : l[i]? with
  | none => simp
  | some v =>
    have : v ∈ l := List.getElem?_mem hg
    simpa using h v this

lemma toRows_length (w hh : Nat) (l : List Nat) :
    (toRows w hh l).length = hh := by
  induction hh generalizing l with
  | zero => rfl
  | succ n ih => simp [toRows, ih]

lemma toRows_getD (w hh : Nat) (l : List Nat) (j : Nat) (hj : j < hh) :
    (toRows w hh l).getD j [] = (l.drop (j * w)).take w := by
  induction hh generalizing l j with
  | zero => omega
  | succ n ih =>
    cases j with
    | zero => simp [toRows]
    | succ j0 =>
      have hj0 : j0 < n := by omega
      simp only [toRows, List.getD_cons_succ, ih (l.drop w) j0 hj0,
        List.drop_drop]
      congr 2
      ring

lemma toRows_getD_mem (w hh : Nat) (l : List Nat) (j : Nat) (v : Nat)
    (hv : v ∈ (toRows w hh l).getD j []) : v ∈ l := by
  by_cases hj : j < hh
  · rw [toRows_getD w hh l j hj] at hv
    exact List.drop_subset _ _ (List.take_subset _ _ hv)
  · rw [List.getD_eq_getElem?_getD, List.getElem?_eq_none] at hv
    · simp at hv
    · rw [toRows_length]; omega

lemma binim_le_one (m : MaskShape) (b : List (List Nat))
    (hb : mask_to_binim_yx m = some b) (j i : Nat) :
    (b.getD j []).getD i 0 ≤ 1 := by
  simp only [mask_to_binim_yx] at hb
  split at hb
  · cases hb
    apply getD_le_one
    intro v hv
    have hvl := toRows_getD_mem _ _ _ _ _ hv
    exact unpackbits_mem_le_one m.bytes v (List.take_subset _ _ hvl)
  · cases hb

lemma mask_to_binim_isSome (m : MaskShape)
    (hwf : m.w * m.h ≤ 8 * m.bytes.length) :
    mask_to_binim_yx m =
      some (toRows m.w m.h ((unpackbits m.bytes).take (m.w * m.h))) := by
  simp only [mask_to_binim_yx]
  rw [if_pos]
  rw [List.length_take, length_unpackbits]
  omega

lemma mask_to_binim_none (m : MaskShape)
    (h : 8 * m.bytes.length < m.w * m.h) :
    mask_to_binim_yx m = none := by
  simp only [mask_to_binim_yx]
  rw [if_neg]
  rw [List.length_take, length_unpackbits]
  omega

lemma take_getD (l : List Nat) (n e : Nat) (he : e < n) :
    (l.take n).getD e 0 = l.getD e 0 := by
  rw [List.getD_eq_getElem?_getD, List.getD_eq_getElem?_getD,
    List.getElem?_take]
  simp [he]

lemma drop_take_getD (l : List Nat) (a w i : Nat) (hi : i < w) :
    ((l.drop a).take w).getD i 0 = l.getD (a + i) 0 := by
  rw [take_getD _ _ _ hi, List.getD_eq_getElem?_getD,
    List.getD_eq_getElem?_getD, List.getElem?_drop]

lemma binim_entry (m : MaskShape) (b : List (List Nat))
    (hb : mask_to_binim_yx m = some b)
    (j i : Nat) (hj : j < m.h) (hi : i < m.w) :
    (b.getD j []).getD i 0 =
      m.bytes.getD ((j * m.w + i) / 8) 0 / 2 ^ (7 - (j * m.w + i) % 8) % 2 := by
  have hwf : m.w * m.h ≤ 8 * m.bytes.length := by
    by_contra hc
    push_neg at hc
    rw [mask_to_binim_none m hc] at hb
    cases hb
  rw [mask_to_binim_isSome m hwf] at hb
  cases hb
  rw [toRows_getD _ _ _ j hj, drop_take_getD _ _ _ _ hi]
  have hidx : j * m.w + i < m.w * m.h := by
    calc j * m.w + i < j * m.w + m.w := by omega
    _ = (j + 1) * m.w := by ring
    _ ≤ m.h * m.w := Nat.mul_le_mul_right _ (by omega)
    _ = m.w * m.h := Nat.mul_comm _ _
  rw [take_getD _ _ _ hidx]
  exact unpackbits_getD m.bytes _ (by omega)

lemma get_indices_nodup (ign : List String) (d : String) (dv : Option Nat)
    (n : Nat) : (get_indices ign d dv n).Nodup := by
  unfold get_indices
  split
  · simp
  · cases dv <;> simp [List.nodup_range]

lemma length_flatMap_const {α β : Type} (l : List α) (f : α → List β)
    (n : Nat) (h : ∀ a ∈ l, (f a).length = n) :
    (l.flatMap f).length = l.length * n := by
  induction l with
  | nil => simp
  | cons a as ih =>
    simp only [List.flatMap_cons, List.length_append, List.length_cons]
    rw [h a (by simp), ih (fun a ha => h a (by simp [ha]))]
    ring

lemma mem_planesOf (ign : List String) (size_t size_c size_z : Nat)
    (m : MaskShape) (it ic iz : Nat) :
    (it, ic, iz) ∈ planesOf ign size_t size_c size_z m ↔
      it ∈ get_indices ign "T" m.theT size_t ∧
      ic ∈ get_indices ign "C" m.theC size_c ∧
      iz ∈ get_indices ign "Z" m.theZ size_z := by
  simp only [planesOf, List.mem_flatMap, List.mem_map]
  constructor
  · rintro ⟨a, ha, b, hb, c, hc, heq⟩
    obtain ⟨rfl, rfl, rfl⟩ : a = it ∧ b = ic ∧ c = iz := by
      simpa [Prod.ext_iff] using heq
    exact ⟨ha, hb, hc⟩
  · rintro ⟨hT, hC, hZ⟩
    exact ⟨it, hT, ic, hC, iz, hZ, rfl⟩

lemma planesOf_length (ign : List String) (size_t size_c size_z : Nat)
    (m : MaskShape) :
    (planesOf ign size_t size_c size_z m).length =
      (get_indices ign "T" m.theT size_t).length *
        ((get_indices ign "C" m.theC size_c).length *
          (get_indices ign "Z" m.theZ size_z).length) := by
  unfold planesOf
  rw [length_flatMap_const _ _
    ((get_indices ign "C" m.theC size_c).length *
      (get_indices ign "Z" m.theZ size_z).length)]
  intro a _
  rw [length_flatMap_const _ _ (get_indices ign "Z" m.theZ size_z).length]
  intro b _
  simp

lemma planesOf_nodup (ign : List String) (size_t size_c size_z : Nat)
    (m : MaskShape) : (planesOf ign size_t size_c size_z m).Nodup := by
  unfold planesOf
  rw [List.nodup_flatMap]
  refine ⟨fun it _ => ?_, ?_⟩
  · rw [List.nodup_flatMap]
    refine ⟨fun ic _ => ?_, ?_⟩
    · exact (get_indices_nodup ign "Z" m.theZ size_z).map
        (fun a b hab => by simpa using hab)
    · refine (get_indices_nodup ign "C" m.theC size_c).imp ?_
      intro ic1 ic2 hne p hp1 hp2
      simp only [Function.onFun, List.mem_map] at hp1 hp2
      obtain ⟨a1, -, rfl⟩ := hp1
      obtain ⟨a2, -, heq⟩ := hp2
      injection heq with h1 h2
      injection h2 with h3 h4
      exact hne h3.symm
  · refine (get_indices_nodup ign "T" m.theT size_t).imp ?_
    intro it1 it2 hne p hp1 hp2
    simp only [Function.onFun, List.mem_flatMap, List.mem_map] at hp1 hp2
    obtain ⟨b1, -, a1, -, rfl⟩ := hp1
    obtain ⟨b2, -, a2, -, heq⟩ := hp2
    injection heq with h1 h2
    exact hne h1.symm

lemma int64_cast_id (x : Int) (h0 : 0 ≤ x) (h1 : x < 2 ^ 63) :
    Dtype.int64.cast x = x := by
  show (x + 2 ^ 63) % 2 ^ 64 - 2 ^ 63 = x
  rw [Int.emod_eq_of_lt (by omega) (by omega)]
  omega

lemma decodedBit_eq (m : MaskShape) (b : List (List Nat))
    (hb : mask_to_binim_yx m = some b) (j i : Nat) :
    decodedBit m j i = (b.getD j []).getD i 0 := by
  simp [decodedBit, hb]

instance (m : MaskShape) (ps : List (Nat × Nat × Nat)) (q : Ix5) :
    Decidable (pixP m ps q) := by
  unfold pixP; infer_instance

instance (ign : List String) (size_t size_c size_z : Nat) (m : MaskShape)
    (q : Ix5) : Decidable (pixOf ign size_t size_c size_z m q) := by
  unfold pixOf; infer_instance

lemma writePlanes_ok (count : Nat) (m : MaskShape) (b : List (List Nat))
    (B : Int) (hb : mask_to_binim_yx m = some b)
    (hcnt : (count : Int) + 1 ≤ B) (hB : B < 2 ^ 63)
    (ps : List (Nat × Nat × Nat)) :
    ∀ (L : Arr5), ps.Nodup →
    (∀ q : Ix5, pixP m ps q → L q = 0) →
    (∀ q, 0 ≤ L q ∧ L q ≤ B) →
    ∃ L1, writePlanes .int64 true count m b ps L = .ok L1
      ∧ (∀ q, L1 q = if pixP m ps q then (count : Int) + 1 else L q)
      ∧ (∀ q, 0 ≤ L1 q ∧ L1 q ≤ B) := by
  induction ps with
  | nil =>
    intro L _ _ hrange
    exact ⟨L, rfl, fun q => by simp [pixP], hrange⟩
  | cons p ps ih =>
    obtain ⟨it, ic, iz⟩ := p
    intro L hnd hdisj hrange
    have hnotmem : (it, ic, iz) ∉ ps := (List.nodup_cons.mp hnd).1
    have hndps : ps.Nodup := (List.nodup_cons.mp hnd).2
    have hbit_le : ∀ j i, (b.getD j []).getD i 0 ≤ 1 := binim_le_one m b hb
    have hov : hasOverlap L it ic iz m b = false := by
      simp only [hasOverlap, decide_eq_false_iff_not]
      rintro ⟨j, hj, i, hi, hL, hbit⟩
      apply hL
      apply hdisj ⟨it, ic, iz, m.y + j, m.x + i⟩
      refine ⟨List.mem_cons_self _ _, ⟨?_, ?_, ?_, ?_⟩, ?_⟩
      · exact Nat.le_add_right _ _
      · show m.y + j < m.y + m.h; omega
      · exact Nat.le_add_right _ _
      · show m.x + i < m.x + m.w; omega
      · rw [decodedBit_eq m b hb]
        show (b.getD (m.y + j - m.y) []).getD (m.x + i - m.x) 0 ≠ 0
        have e1 : m.y + j - m.y = j := by omega
        have e2 : m.x + i - m.x = i := by omega
        rw [e1, e2]; exact hbit
    have hstep : writePlanes .int64 true count m b ((it, ic, iz) :: ps) L =
        writePlanes .int64 true count m b ps
          (addPlane .int64 L it ic iz m b ((count : Int) + 1)) := by
      simp [writePlanes, hov]
    set L1 := addPlane .int64 L it ic iz m b ((count : Int) + 1) with hL1
    have hchar1 : ∀ q : Ix5,
        L1 q = if q.t = it ∧ q.c = ic ∧ q.z = iz ∧ inRect m q ∧
            decodedBit m (q.y - m.y) (q.x - m.x) ≠ 0
          then (count : Int) + 1 else L q := by
      intro q
      rw [hL1]
      simp only [addPlane]
      by_cases hc : q.t = it ∧ q.c = ic ∧ q.z = iz ∧ inRect m q
      · rw [if_pos hc]
        by_cases hz : (b.getD (q.y - m.y) []).getD (q.x - m.x) 0 = 0
        · have hcond : ¬(q.t = it ∧ q.c = ic ∧ q.z = iz ∧ inRect m q ∧
              decodedBit m (q.y - m.y) (q.x - m.x) ≠ 0) := by
            rintro ⟨-, -, -, -, hbnz⟩
            rw [decodedBit_eq m b hb] at hbnz
            exact hbnz hz
          rw [if_neg hcond, hz]
          have harg : L q + ((0 : Nat) : Int) * ((count : Int) + 1) = L q := by
            push_cast; ring
          rw [harg]
          exact int64_cast_id (L q) (hrange q).1
            (lt_of_le_of_lt (hrange q).2 hB)
        · have hdb : decodedBit m (q.y - m.y) (q.x - m.x) ≠ 0 := by
            rw [decodedBit_eq m b hb]; exact hz
          have hpix : pixP m ((it, ic, iz) :: ps) q := by
            refine ⟨?_, hc.2.2.2, hdb⟩
            rw [hc.1, hc.2.1, hc.2.2.1]
            exact List.mem_cons_self _ _
          have hL0 : L q = 0 := hdisj q hpix
          have hb1 : (b.getD (q.y - m.y) []).getD (q.x - m.x) 0 = 1 := by
            have := hbit_le (q.y - m.y) (q.x - m.x); omega
          rw [if_pos ⟨hc.1, hc.2.1, hc.2.2.1, hc.2.2.2, hdb⟩, hL0, hb1]
          have harg : (0 : Int) + ((1 : Nat) : Int) * ((count : Int) + 1) =
              (count : Int) + 1 := by push_cast; ring
          rw [harg]
          exact int64_cast_id _ (by omega) (by omega)
      · rw [if_neg hc,
          if_neg (fun hcc => hc ⟨hcc.1, hcc.2.1, hcc.2.2.1, hcc.2.2.2.1⟩)]
    have hrange1 : ∀ q, 0 ≤ L1 q ∧ L1 q ≤ B := by
      intro q
      rw [hchar1 q]
      split
      · constructor
        · omega
        · exact hcnt
      · exact hrange q
    have hdisj1 : ∀ q : Ix5, pixP m ps q → L1 q = 0 := by
      intro q hq
      have hq' : pixP m ((it, ic, iz) :: ps) q :=
        ⟨List.mem_cons_of_mem _ hq.1, hq.2⟩
      have hL0 : L q = 0 := hdisj q hq'
      rw [hchar1 q, if_neg, hL0]
      rintro ⟨e1, e2, e3, -, -⟩
      apply hnotmem
      have hmem : (q.t, q.c, q.z) ∈ ps := hq.1
      rw [e1, e2, e3] at hmem
      exact hmem
    obtain ⟨L2, heq2, hchar2, hrange2⟩ := ih L1 hndps hdisj1 hrange1
    refine ⟨L2, by rw [hstep, heq2], ?_, hrange2⟩
    intro q
    rw [hchar2 q]
    by_cases h2 : pixP m ps q
    · rw [if_pos h2, if_pos ⟨List.mem_cons_of_mem _ h2.1, h2.2⟩]
    · rw [if_neg h2, hchar1 q]
      by_cases hh : pixP m ((it, ic, iz) :: ps) q
      · rw [if_pos hh]
        have hpl : (q.t, q.c, q.z) = (it, ic, iz) := by
          rcases List.mem_cons.mp hh.1 with he | hm
          · exact he
          · exact absurd ⟨hm, hh.2⟩ h2
        obtain ⟨e1, e2, e3⟩ : q.t = it ∧ q.c = ic ∧ q.z = iz := by
          have h := hpl
          simp only [Prod.ext_iff] at h
          exact ⟨h.1, h.2.1, h.2.2⟩
        rw [if_pos ⟨e1, e2, e3, hh.2.1, hh.2.2⟩]
      · rw [if_neg hh, if_neg]
        rintro ⟨e1, e2, e3, hr, hbz⟩
        apply hh
        refine ⟨?_, hr, hbz⟩
        rw [e1, e2, e3]
        exact List.mem_cons_self _ _

lemma writeShapes_ok (size_t size_c size_z : Nat) (ign : List String)
    (count : Nat) (B : Int)
    (hcnt : (count : Int) + 1 ≤ B) (hB : B < 2 ^ 63) :
    ∀ (shapes : List MaskShape) (L : Arr5),
    (∀ m ∈ shapes, m.w * m.h ≤ 8 * m.bytes.length) →
    shapes.Pairwise (pixDisjoint ign size_t size_c size_z) →
    (∀ q : Ix5, ∀ m ∈ shapes, pixOf ign size_t size_c size_z m q → L q = 0) →
    (∀ q, 0 ≤ L q ∧ L q ≤ B) →
    ∃ L1, writeShapes .int64 true size_t size_c size_z ign count shapes L
        = .ok L1
      ∧ (∀ q, L1 q = if ∃ m ∈ shapes, pixOf ign size_t size_c size_z m q
          then (count : Int) + 1 else L q)
      ∧ (∀ q, 0 ≤ L1 q ∧ L1 q ≤ B) := by
  intro shapes
  induction shapes with
  | nil =>
    intro L _ _ _ hrange
    exact ⟨L, rfl, fun q => by simp, hrange⟩
  | cons mm rest ih =>
    intro L hwf hpw hdisj hrange
    have hwfm : mm.w * mm.h ≤ 8 * mm.bytes.length := hwf mm (by simp)
    have hb := mask_to_binim_isSome mm hwfm
    set b := toRows mm.w mm.h ((unpackbits mm.bytes).take (mm.w * mm.h))
      with hbdef
    have hcross : ∀ m' ∈ rest, pixDisjoint ign size_t size_c size_z mm m' :=
      (List.pairwise_cons.mp hpw).1
    have hdisjP : ∀ q : Ix5,
        pixP mm (planesOf ign size_t size_c size_z mm) q → L q = 0 :=
      fun q hq => hdisj q mm (by simp) hq
    obtain ⟨L1, heq1, hchar1, hrange1⟩ :=
      writePlanes_ok count mm b B hb hcnt hB
        (planesOf ign size_t size_c size_z mm) L
        (planesOf_nodup ign size_t size_c size_z mm) hdisjP hrange
    have hstep : writeShapes .int64 true size_t size_c size_z ign count
        (mm :: rest) L
        = writeShapes .int64 true size_t size_c size_z ign count rest L1 := by
      simp only [writeShapes, writeMask, hb, heq1]
    have hdisj1 : ∀ q : Ix5, ∀ m' ∈ rest,
        pixOf ign size_t size_c size_z m' q → L1 q = 0 := by
      intro q m' hm' hp'
      rw [hchar1 q]
      by_cases hmm : pixP mm (planesOf ign size_t size_c size_z mm) q
      · exact absurd hp' (hcross m' hm' q hmm)
      · rw [if_neg hmm]
        exact hdisj q m' (by simp [hm']) hp'
    obtain ⟨L2, heq2, hchar2, hrange2⟩ :=
      ih L1 (fun m' hm' => hwf m' (by simp [hm']))
        (List.pairwise_cons.mp hpw).2 hdisj1 hrange1
    refine ⟨L2, by rw [hstep, heq2], ?_, hrange2⟩
    intro q
    rw [hchar2 q]
    by_cases hex : ∃ m' ∈ rest, pixOf ign size_t size_c size_z m' q
    · rw [if_pos hex]
      obtain ⟨m', hm', hp'⟩ := hex
      rw [if_pos ⟨m', by simp [hm'], hp'⟩]
    · rw [if_neg hex, hchar1 q]
      by_cases hmm : pixP mm (planesOf ign size_t size_c size_z mm) q
      · rw [if_pos hmm, if_pos ⟨mm, by simp, hmm⟩]
      · rw [if_neg hmm, if_neg]
        rintro ⟨m', hm', hp'⟩
        rcases List.mem_cons.mp hm' with rfl | hmem
        · exact hmm hp'
        · exact hex ⟨m', hmem, hp'⟩

lemma writeRois_ok (size_t size_c size_z : Nat) (ign : List String)
    (B : Int) (hB : B < 2 ^ 63) :
    ∀ (rois : List (List MaskShape)) (count : Nat) (L : Arr5),
    ((count : Int) + (rois.length : Int) ≤ B) →
    (∀ shapes ∈ rois, ∀ m ∈ shapes, m.w * m.h ≤ 8 * m.bytes.length) →
    (rois.flatMap id).Pairwise (pixDisjoint ign size_t size_c size_z) →
    (∀ q : Ix5, ∀ shapes ∈ rois, ∀ m ∈ shapes,
      pixOf ign size_t size_c size_z m q → L q = 0) →
    (∀ q, 0 ≤ L q ∧ L q ≤ B) →
    ∃ L1, writeRois .int64 true size_t size_c size_z ign count rois L = .ok L1
      ∧ (∀ q, (∀ shapes ∈ rois, ∀ m ∈ shapes,
          ¬ pixOf ign size_t size_c size_z m q) → L1 q = L q)
      ∧ (∀ k, k < rois.length → ∀ m ∈ rois.getD k [], ∀ q,
          pixOf ign size_t size_c size_z m q →
            L1 q = (count : Int) + (k : Int) + 1)
      ∧ (∀ q, 0 ≤ L1 q ∧ L1 q ≤ B) := by
  intro rois
  induction rois with
  | nil =>
    intro count L _ _ _ _ hrange
    exact ⟨L, rfl, fun q _ => rfl, fun k hk => by simp at hk, hrange⟩
  | cons shapes rest ih =>
    intro count L hcnt hwf hpw hdisj hrange
    have hflat : ((shapes :: rest).flatMap id)
        = shapes ++ rest.flatMap id := by simp
    rw [hflat, List.pairwise_append] at hpw
    obtain ⟨hpw1, hpw2, hcross⟩ := hpw
    have hlen : (count : Int) + 1 ≤ B := by
      have : ((shapes :: rest).length : Int) = (rest.length : Int) + 1 := by
        push_cast [List.length_cons]; ring
      omega
    obtain ⟨L1, heq1, hchar1, hrange1⟩ :=
      writeShapes_ok size_t size_c size_z ign count B hlen hB shapes L
        (hwf shapes (by simp)) hpw1
        (fun q m hm hp => hdisj q shapes (by simp) m hm hp) hrange
    have hstep : writeRois .int64 true size_t size_c size_z ign count
        (shapes :: rest) L
        = writeRois .int64 true size_t size_c size_z ign (count + 1) rest
            L1 := by
      simp only [writeRois, heq1]
    have hdisj1 : ∀ q : Ix5, ∀ shapes' ∈ rest, ∀ m ∈ shapes',
        pixOf ign size_t size_c size_z m q → L1 q = 0 := by
      intro q shapes' hs' m hm hp
      rw [hchar1 q]
      by_cases hex : ∃ mm ∈ shapes, pixOf ign size_t size_c size_z mm q
      · obtain ⟨mm, hmm, hpm⟩ := hex
        have : m ∈ rest.flatMap id := List.mem_flatMap.mpr ⟨shapes', hs', hm⟩
        exact absurd hp (hcross mm hmm m this q hpm)
      · rw [if_neg hex]
        exact hdisj q shapes' (by simp [hs']) m hm hp
    have hcnt1 : ((count + 1 : Nat) : Int) + (rest.length : Int) ≤ B := by
      have : ((shapes :: rest).length : Int) = (rest.length : Int) + 1 := by
        push_cast [List.length_cons]; ring
      push_cast
      omega
    obtain ⟨L2, heq2, hout2, hin2, hrange2⟩ :=
      ih (count + 1) L1 hcnt1 (fun s hs => hwf s (by simp [hs])) hpw2
        hdisj1 hrange1
    refine ⟨L2, by rw [hstep, heq2], ?_, ?_, hrange2⟩
    · intro q hq
      have h2 : L2 q = L1 q :=
        hout2 q (fun s hs m hm => hq s (by simp [hs]) m hm)
      rw [h2, hchar1 q, if_neg]
      rintro ⟨mm, hmm, hpm⟩
      exact hq shapes (by simp) mm hmm hpm
    · intro k hk m hm q hp
      cases k with
      | zero =>
        have hms : m ∈ shapes := by simpa using hm
        have hnorest : ∀ s ∈ rest, ∀ m' ∈ s,
            ¬ pixOf ign size_t size_c size_z m' q := by
          intro s hs m' hm' hp'
          have hmf : m' ∈ rest.flatMap id :=
            List.mem_flatMap.mpr ⟨s, hs, hm'⟩
          exact hcross m hms m' hmf q hp hp'
        have h2 : L2 q = L1 q := hout2 q hnorest
        rw [h2, hchar1 q, if_pos ⟨m, hms, hp⟩]
        push_cast
        ring
      | succ k0 =>
        have hk0 : k0 < rest.length := by simpa using hk
        have hm0 : m ∈ rest.getD k0 [] := by simpa using hm
        have hv := hin2 k0 hk0 m hm0 q hp
        rw [hv]
        push_cast
        ring

lemma writePlanes_append_ok (dt : Dtype) (check : Bool) (count : Nat)
    (m : MaskShape) (b : List (List Nat))
    (ps1 ps2 : List (Nat × Nat × Nat)) :
    ∀ (L L1 : Arr5), writePlanes dt check count m b ps1 L = .ok L1 →
    writePlanes dt check count m b (ps1 ++ ps2) L
      = writePlanes dt check count m b ps2 L1 := by
  induction ps1 with
  | nil =>
    intro L L1 h
    obtain rfl : L = L1 := by simpa [writePlanes] using h
    rfl
  | cons p ps ih =>
    obtain ⟨it, ic, iz⟩ := p
    intro L L1 h
    simp only [writePlanes] at h
    by_cases hc : (check && hasOverlap L it ic iz m b) = true
    · rw [if_pos hc] at h
      cases h
    · simp only [Bool.not_eq_true] at hc
      rw [hc] at h
      simp only [if_neg Bool.false_ne_true] at h
      simp only [List.cons_append, writePlanes, hc,
        if_neg Bool.false_ne_true]
      exact ih _ L1 h

lemma writeRois_append_ok (dt : Dtype) (check : Bool)
    (size_t size_c size_z : Nat) (ign : List String)
    (A C : List (List MaskShape)) :
    ∀ (count : Nat) (L L1 : Arr5),
    writeRois dt check size_t size_c size_z ign count A L = .ok L1 →
    writeRois dt check size_t size_c size_z ign count (A ++ C) L
      = writeRois dt check size_t size_c size_z ign (count + A.length) C
          L1 := by
  induction A with
  | nil =>
    intro count L L1 h
    obtain rfl : L = L1 := by simpa [writeRois] using h
    rfl
  | cons s rest ih =>
    intro count L L1 h
    cases hs : writeShapes dt check size_t size_c size_z ign count s L with
    | error e =>
      simp only [writeRois, hs] at h
      exact absurd h (by simp)
    | ok L2 =>
      simp only [writeRois, hs] at h
      have hgoal : writeRois dt check size_t size_c size_z ign count
          ((s :: rest) ++ C) L
          = writeRois dt check size_t size_c size_z ign (count + 1)
              (rest ++ C) L2 := by
        simp only [List.cons_append, writeRois, hs]
        rfl
      rw [hgoal, ih (count + 1) L2 L1 h]
      have harith : count + 1 + rest.length = count + (s :: rest).length := by
        simp only [List.length_cons]
        omega
      rw [harith]

lemma writePlanes_outside (dt : Dtype) (check : Bool) (count : Nat)
    (m : MaskShape) (b : List (List Nat)) :
    ∀ (ps : List (Nat × Nat × Nat)) (L L1 : Arr5),
    writePlanes dt check count m b ps L = .ok L1 →
    ∀ q : Ix5, (q.t, q.c, q.z) ∉ ps → L1 q = L q := by
  intro ps
  induction ps with
  | nil =>
    intro L L1 h q _
    obtain rfl : L = L1 := by simpa [writePlanes] using h
    rfl
  | cons p ps ih =>
    obtain ⟨it, ic, iz⟩ := p
    intro L L1 h q hq
    simp only [writePlanes] at h
    by_cases hc : (check && hasOverlap L it ic iz m b) = true
    · rw [if_pos hc] at h
      cases h
    · simp only [Bool.not_eq_true] at hc
      rw [hc] at h
      simp only [if_neg Bool.false_ne_true] at h
      have hq2 : (q.t, q.c, q.z) ∉ ps := fun hmem => hq (by simp [hmem])
      rw [ih _ _ h q hq2]
      simp only [addPlane]
      rw [if_neg]
      rintro ⟨e1, e2, e3, -⟩
      exact hq (by rw [e1, e2, e3]; exact List.mem_cons_self _ _)

lemma buildLabelMap_append (roiIds : List Nat) (l1 l2 : List String) :
    ∀ acc acc1, buildLabelMap roiIds l1 acc = (acc1, false) →
    buildLabelMap roiIds (l1 ++ l2) acc = buildLabelMap roiIds l2 acc1 := by
  induction l1 with
  | nil =>
    intro acc acc1 h
    obtain rfl : acc = acc1 := by simpa [buildLabelMap] using h
    rfl
  | cons line rest ih =>
    intro acc acc1 h
    simp only [buildLabelMap] at h
    simp only [List.cons_append, buildLabelMap]
    cases hp : parseLabelMapLine line with
    | none => rw [hp] at h; simp at h
    | some v =>
      obtain ⟨sid, name, roi⟩ := v
      rw [hp] at h
      simp only at h ⊢
      cases hn : parseIntNat roi with
      | none => rw [hn] at h; simp at h
      | some r =>
        rw [hn] at h
        simp only at h ⊢
        by_cases hc : roiIds.contains r = true
        · rw [hc] at h
          simp only [if_pos] at h
          rw [hc]
          simp only [if_pos]
          exact ih _ _ h
        · simp only [Bool.not_eq_true] at hc
          rw [hc] at h
          simp only [if_neg Bool.false_ne_true] at h
          simp at h

lemma dedup_eq_single_none (l : List (Option Nat)) :
    l.dedup = [none] ↔ l ≠ [] ∧ ∀ x ∈ l, x = none := by
  constructor
  · intro h
    constructor
    · intro hnil
      rw [hnil] at h
      simp at h
    · intro x hx
      have hmem : x ∈ l.dedup := List.mem_dedup.mpr hx
      rw [h] at hmem
      simpa using hmem
  · rintro ⟨hne, hall⟩
    have hsub : ∀ x ∈ l.dedup, x = none :=
      fun x hx => hall x (List.mem_dedup.mp hx)
    have hmem : (none : Option Nat) ∈ l.dedup := by
      cases l with
      | nil => exact absurd rfl hne
      | cons a as =>
        have ha : a = none := hall a (by simp)
        rw [← ha]
        exact List.mem_dedup.mpr (by simp)
    have hnd : l.dedup.Nodup := List.nodup_dedup l
    cases hd : l.dedup with
    | nil => rw [hd] at hmem; simp at hmem
    | cons a as =>
      have ha : a = none := hsub a (by rw [hd]; simp)
      cases as with
      | nil => rw [ha]
      | cons b bs =>
        have hb2 : b = none := hsub b (by rw [hd]; simp)
        rw [hd, ha, hb2] at hnd
        simp [List.nodup_cons] at hnd

/-- C3: the claim asserts that `save` creates an array of shape (T,C,Z,Y,X)
with collapsed axes forced to 1 (plus a leading group axis for style 6d),
including when the collapsed-axis set is empty.  The source binds
`mask_shape` only inside the loop over `ignored_dimensions`, so with an
empty collapsed-axis set the name is unbound and `save` raises
`UnboundLocalError` (first two conjuncts, modelled as `none`); with a
nonempty collapsed-axis set the claimed shapes are produced (remaining
conjuncts). -/
theorem save_shape_empty_collapse_bug :
    computeMaskShape [2, 3, 4, 5, 6] [] = none
    ∧ saveShape "labeled" [2, 3, 4, 5, 6] [] 1 = none
    ∧ computeMaskShape [2, 3, 4, 5, 6] ["Z"] = some [2, 3, 1, 5, 6]
    ∧ saveShape "labeled" [2, 3, 4, 5, 6] ["T", "Z"] 1 = some [1, 3, 1, 5, 6]
    ∧ saveShape "6d" [2, 3, 4, 5, 6] ["T"] 4 = some [4, 1, 3, 4, 5, 6]
    ∧ saveShape "split" [2, 3, 4, 5, 6] ["C"] 9 = some [2, 1, 4, 5, 6] := by
  refine ⟨rfl, rfl, rfl, rfl, rfl, rfl⟩

/-- C9 counterexample: the claim says a packed buffer holding fewer than
`width * height` bits is decoded by silent truncation into a partial plane.
On the source, `np.reshape` raises instead: a 3x3 mask with a single byte
(8 bits) produces no plane at all. -/
theorem short_buffer_silent_truncation_counterexample :
    mask_to_binim_yx
      (⟨none, none, none, 0, 0, 3, 3, [255], none⟩ : MaskShape) = none := by
  rfl

/-- C9 amended: when the packed buffer holds fewer than `width * height`
bits, decoding raises (`ValueError` from `np.reshape`, modelled as `none`)
rather than truncating silently; silent truncation only drops excess bits
when the buffer holds at least `width * height` bits. -/
theorem short_buffer_raises (m : MaskShape)
    (hlt : 8 * m.bytes.length < m.w * m.h) :
    mask_to_binim_yx m = none :=
  mask_to_binim_none m hlt

/-- Witness for the amended C9 statement at a concrete 5x2 mask with one
byte. -/
theorem short_buffer_raises_witness :
    8 * 1 < 5 * 2
    ∧ mask_to_binim_yx
        (⟨none, none, none, 0, 0, 5, 2, [255], none⟩ : MaskShape) = none :=
  ⟨by decide,
    short_buffer_raises ⟨none, none, none, 0, 0, 5, 2, [255], none⟩
      (by decide)⟩

/-- C7 counterexample: the claim says that in style 6d the overlap guard is
applied (with `check_overlaps = True` from `save`), so two overlapping masks
within one group abort the write.  On the source, `stack_masks` never reads
its `check_overlaps` parameter: with two 2x2 all-ones masks overlapping at
pixel (y=1, x=1) the write succeeds and the overlap sums to 2. -/
theorem stack_masks_overlap_no_abort_counterexample :
    ∃ T1, stack_masks .int64
        [[⟨none, none, none, 0, 0, 2, 2, [240], none⟩,
          ⟨none, none, none, 1, 1, 2, 2, [240], none⟩]]
        [1, 1, 1, 3, 3] zeroArr6 ["T", "C", "Z"] true = .ok T1
      ∧ T1 ⟨0, 0, 0, 0, 1, 1⟩ = 2
      ∧ T1 ⟨0, 0, 0, 0, 0, 0⟩ = 1
      ∧ T1 ⟨0, 0, 0, 0, 2, 2⟩ = 1 := by
  refine ⟨_, rfl, by decide, by decide, by decide⟩

/-- C7 amended: `stack_masks` accepts the `check_overlaps` flag but never
consults it (the two flag values produce identical results on every input),
so overlapping masks within one 6d group are summed pixel-wise instead of
aborting the write. -/
theorem stack_masks_guard_never_consulted :
    (∀ (dt : Dtype) (masks : List (List MaskShape)) (msh : List Nat)
      (T : Arr6) (ign : List String) (c1 c2 : Bool),
      stack_masks dt masks msh T ign c1 = stack_masks dt masks msh T ign c2)
    ∧ (∃ T1, stack_masks .int64
        [[⟨none, none, none, 0, 0, 2, 2, [240], none⟩,
          ⟨none, none, none, 1, 1, 2, 2, [240], none⟩]]
        [1, 1, 1, 3, 3] zeroArr6 ["T", "C", "Z"] false = .ok T1
      ∧ T1 ⟨0, 0, 0, 0, 1, 1⟩ = 2) := by
  exact ⟨fun dt masks msh T ign c1 c2 => rfl, ⟨_, rfl, by decide⟩⟩

/-- C8 counterexample: the claim says a malformed label-map line aborts the
whole map, discards partial results, and nothing is written.  On the source
the exception is caught after the loop: with lines `"1,a,7"` and `"oops"`
the entry parsed from the first line is kept and its group `"a"` is still
saved. -/
theorem label_map_partial_write_counterexample :
    buildLabelMap [7] ["1,a,7", "oops"] [] = ([("a", 7)], true)
    ∧ labelMapSavedNames [7] ["1,a,7", "oops"] = ["a"] := by
  refine ⟨by decide, by decide⟩

/-- C8 amended: a malformed line stops the parsing loop at that line (the
caught exception is reported), but the entries accumulated from the earlier
lines are kept, arrays are still written for their groups, and the
remaining lines are skipped. -/
theorem label_map_keeps_prefix (roiIds : List Nat) (good : List String)
    (bad : String) (rest : List String) (acc1 : List (String × Nat))
    (hgood : buildLabelMap roiIds good [] = (acc1, false))
    (hbad : parseLabelMapLine bad = none) :
    buildLabelMap roiIds (good ++ bad :: rest) [] = (acc1, true)
    ∧ labelMapSavedNames roiIds (good ++ bad :: rest)
        = (labelMapGroups acc1).map (fun g => g.1) := by
  have h1 : buildLabelMap roiIds (good ++ bad :: rest) []
      = buildLabelMap roiIds (bad :: rest) acc1 :=
    buildLabelMap_append roiIds good (bad :: rest) [] acc1 hgood
  have h2 : buildLabelMap roiIds (bad :: rest) acc1 = (acc1, true) := by
    simp [buildLabelMap, hbad]
  refine ⟨h1.trans h2, ?_⟩
  unfold labelMapSavedNames
  rw [h1.trans h2]

/-- Witness for the amended C8 statement: one good line, one malformed
line, one further good line that is skipped. -/
theorem label_map_keeps_prefix_witness :
    buildLabelMap [7] ["1,a,7", "oops", "2,b,7"] [] = ([("a", 7)], true)
    ∧ labelMapSavedNames [7] ["1,a,7", "oops", "2,b,7"] = ["a"] := by
  have h := label_map_keeps_prefix [7] ["1,a,7"] "oops" ["2,b,7"]
    [("a", 7)] (by decide) (by decide)
  exact ⟨h.1, h.2.trans (by decide)⟩

/-- C10: the bit-depth-1 dtype downgrade of `image_masks_to_zarr` tests for
style exactly `"labeled"`; any other style keeps the boolean dtype.  The
same compositing routine `masks_to_labels` then writes `binim * (count+1)`
through the boolean store: with two disjoint one-pixel objects the boolean
array holds 1 (True) at both objects' pixels, while the 64-bit run of the
identical input holds the distinguishing ids 1 and 2 — so object identity
is not representable in a boolean-dtype output. -/
theorem dtype_downgrade_only_labeled :
    chosenDtype "labeled" 1 = some .int64
    ∧ (∀ style : String, style ≠ "labeled" → chosenDtype style 1 = some .bool)
    ∧ (∃ L, masks_to_labels .bool
        [[⟨none, none, none, 0, 0, 1, 1, [128], none⟩],
         [⟨none, none, none, 1, 0, 1, 1, [128], none⟩]]
        [1, 1, 1, 1, 2] ["T", "C", "Z"] true zeroArr = .ok L
      ∧ L ⟨0, 0, 0, 0, 0⟩ = 1 ∧ L ⟨0, 0, 0, 0, 1⟩ = 1)
    ∧ (∃ L, masks_to_labels .int64
        [[⟨none, none, none, 0, 0, 1, 1, [128], none⟩],
         [⟨none, none, none, 1, 0, 1, 1, [128], none⟩]]
        [1, 1, 1, 1, 2] ["T", "C", "Z"] true zeroArr = .ok L
      ∧ L ⟨0, 0, 0, 0, 0⟩ = 1 ∧ L ⟨0, 0, 0, 0, 1⟩ = 2) := by
  refine ⟨rfl, ?_, ⟨_, rfl, by decide, by decide⟩, ⟨_, rfl, by decide, by decide⟩⟩
  intro style hs
  simp [chosenDtype, MASK_DTYPE_SIZE, hs]

/-- Witness for the hypothesised conjunct of the C10 theorem, at the
concrete style `"split"`. -/
theorem dtype_downgrade_only_labeled_witness :
    chosenDtype "split" 1 = some .bool :=
  dtype_downgrade_only_labeled.2.1 "split" (by decide)

/-- C4: for a grouping with at least one mask, an axis in {T, C, Z} is in
the collapsed (ignored) set computed by `save` if and only if every single
mask of the grouping leaves that axis unspecified; one declared value keeps
the axis at full extent. -/
theorem collapsed_axes_iff (masks : List (List MaskShape))
    (hne : masks.flatMap id ≠ []) (d : String) (hd : d ∈ ["T", "C", "Z"]) :
    d ∈ ignoredDimensions masks ↔
      ∀ m ∈ masks.flatMap id, axisVal d m = none := by
  unfold ignoredDimensions
  rw [List.mem_filter]
  constructor
  · rintro ⟨-, hf⟩
    rw [decide_eq_true_iff] at hf
    unfold uniqueDims at hf
    have hded := (dedup_eq_single_none _).mp hf
    intro m hm
    exact hded.2 (axisVal d m) (List.mem_map.mpr ⟨m, hm, rfl⟩)
  · intro hall
    refine ⟨hd, ?_⟩
    rw [decide_eq_true_iff]
    unfold uniqueDims
    apply (dedup_eq_single_none _).mpr
    refine ⟨?_, ?_⟩
    · simp only [ne_eq, List.map_eq_nil_iff]
      exact hne
    · intro x hx
      obtain ⟨m, hm, rfl⟩ := List.mem_map.mp hx
      exact hall m hm

/-- Witness for C4 at the spec's own example: every mask leaves Z
unspecified, one mask declares T = 2, C is left unspecified by one mask
and declared by the other; only Z is collapsed. -/
theorem collapsed_axes_iff_witness :
    (∀ m ∈ ([[⟨some 2, none, none, 0, 0, 1, 1, [128], none⟩],
              [⟨none, some 0, none, 0, 0, 1, 1, [128], none⟩]] :
        List (List MaskShape)).flatMap id, axisVal "Z" m = none)
    ∧ "Z" ∈ ignoredDimensions
        [[⟨some 2, none, none, 0, 0, 1, 1, [128], none⟩],
         [⟨none, some 0, none, 0, 0, 1, 1, [128], none⟩]]
    ∧ ignoredDimensions
        [[⟨some 2, none, none, 0, 0, 1, 1, [128], none⟩],
         [⟨none, some 0, none, 0, 0, 1, 1, [128], none⟩]] = ["Z"] := by
  refine ⟨by decide, ?_, by decide⟩
  exact (collapsed_axes_iff
    [[⟨some 2, none, none, 0, 0, 1, 1, [128], none⟩],
     [⟨none, some 0, none, 0, 0, 1, 1, [128], none⟩]]
    (by decide) "Z" (by decide)).mpr (by decide)

/-- C5: `_get_indices` returns [0] for a collapsed axis (ignoring any
declared value), [value] for a declared value on a live axis, and
[0, ..., extent-1] for an undeclared value on a live axis; the write loops
visit exactly the Cartesian product of the three per-axis lists (membership
and count), and a successful `writeMask` leaves every plane outside that
product untouched. -/
theorem broadcast_indices_exact :
    (∀ (ign : List String) (d : String) (dv : Option Nat) (n : Nat),
      ign.contains d = true → get_indices ign d dv n = [0])
    ∧ (∀ (ign : List String) (d : String) (v n : Nat),
      ign.contains d = false → get_indices ign d (some v) n = [v])
    ∧ (∀ (ign : List String) (d : String) (n : Nat),
      ign.contains d = false → get_indices ign d none n = List.range n)
    ∧ (∀ (ign : List String) (size_t size_c size_z : Nat) (m : MaskShape)
        (it ic iz : Nat),
      (it, ic, iz) ∈ planesOf ign size_t size_c size_z m ↔
        it ∈ get_indices ign "T" m.theT size_t ∧
        ic ∈ get_indices ign "C" m.theC size_c ∧
        iz ∈ get_indices ign "Z" m.theZ size_z)
    ∧ (∀ (ign : List String) (size_t size_c size_z : Nat) (m : MaskShape),
      (planesOf ign size_t size_c size_z m).length =
        (get_indices ign "T" m.theT size_t).length *
          ((get_indices ign "C" m.theC size_c).length *
            (get_indices ign "Z" m.theZ size_z).length))
    ∧ (∀ (dt : Dtype) (check : Bool) (size_t size_c size_z : Nat)
        (ign : List String) (count : Nat) (m : MaskShape) (L L1 : Arr5),
      writeMask dt check size_t size_c size_z ign count m L = .ok L1 →
      ∀ q : Ix5, (q.t, q.c, q.z) ∉ planesOf ign size_t size_c size_z m →
        L1 q = L q) := by
  refine ⟨?_, ?_, ?_, ?_, ?_, ?_⟩
  · intro ign d dv n hin
    have hmem : d ∈ ign := by simpa using hin
    simp [get_indices, hmem]
  · intro ign d v n hnot
    have hmem : d ∉ ign := by simpa using hnot
    simp [get_indices, hmem]
  · intro ign d n hnot
    have hmem : d ∉ ign := by simpa using hnot
    simp [get_indices, hmem]
  · exact fun ign st sc sz m it ic iz => mem_planesOf ign st sc sz m it ic iz
  · exact fun ign st sc sz m => planesOf_length ign st sc sz m
  · intro dt check st sc sz ign count m L L1 h q hq
    unfold writeMask at h
    cases hb : mask_to_binim_yx m with
    | none => rw [hb] at h; cases h
    | some b =>
      rw [hb] at h
      exact writePlanes_outside dt check count m b _ L L1 h q hq

/-- Witness for C5: a collapsed axis with a declared value still maps to
[0]; an undeclared C on a live axis of extent 3 broadcasts to [0, 1, 2];
the plane count is the product of the three list lengths. -/
theorem broadcast_indices_exact_witness :
    get_indices ["Z"] "Z" (some 5) 9 = [0]
    ∧ get_indices [] "C" none 3 = [0, 1, 2]
    ∧ (planesOf [] 2 3 4
        ⟨none, none, some 1, 0, 0, 1, 1, [128], none⟩).length = 2 * (3 * 1) := by
  have h := broadcast_indices_exact
  refine ⟨h.1 ["Z"] "Z" (some 5) 9 (by decide), ?_, ?_⟩
  · rw [h.2.2.1 [] "C" 3 (by decide)]
    decide
  · rw [h.2.2.2.2.1 [] 2 3 4 ⟨none, none, some 1, 0, 0, 1, 1, [128], none⟩]
    decide

/-- C6: for a buffer holding at least `width * height` bits the decoder
yields a `(height, width)` plane whose entry (j, i) is bit `j * width + i`
of the big-endian unpacking (bit 7 of byte 0 first), with every entry in
{0, 1}. -/
theorem bit_decoder_correct (m : MaskShape)
    (hwf : m.w * m.h ≤ 8 * m.bytes.length) :
    ∃ b, mask_to_binim_yx m = some b
      ∧ b.length = m.h
      ∧ (∀ j, j < m.h → (b.getD j []).length = m.w)
      ∧ (∀ j i, j < m.h → i < m.w →
          (b.getD j []).getD i 0 =
            m.bytes.getD ((j * m.w + i) / 8) 0
              / 2 ^ (7 - (j * m.w + i) % 8) % 2)
      ∧ (∀ j i, (b.getD j []).getD i 0 ≤ 1) := by
  have hb := mask_to_binim_isSome m hwf
  refine ⟨_, hb, toRows_length _ _ _, ?_, ?_, ?_⟩
  · intro j hj
    rw [toRows_getD _ _ _ j hj, List.length_take, List.length_drop,
      List.length_take, length_unpackbits]
    have h1 : j * m.w + m.w ≤ m.h * m.w := by
      have h2 := Nat.mul_le_mul_right m.w (show j + 1 ≤ m.h by omega)
      rwa [Nat.succ_mul] at h2
    have h3 : m.w * m.h = m.h * m.w := Nat.mul_comm _ _
    omega
  · intro j i hj hi
    exact binim_entry m _ hb j i hj hi
  · intro j i
    exact binim_le_one m _ hb j i

/-- Witness for C6 at the spec's example: buffer 0xF0, width 4, height 2
decodes to [[1,1,1,1],[0,0,0,0]]. -/
theorem bit_decoder_correct_witness :
    (4 * 2 ≤ 8 * 1
      ∧ mask_to_binim_yx
          (⟨none, none, none, 0, 0, 4, 2, [240], none⟩ : MaskShape)
        = some [[1, 1, 1, 1], [0, 0, 0, 0]]) := by
  obtain ⟨b, hb, -, -, -, -⟩ :=
    bit_decoder_correct ⟨none, none, none, 0, 0, 4, 2, [240], none⟩
      (by decide)
  exact ⟨by decide, by decide⟩

/-- C2: when, after some ROIs have been written cleanly and some planes of
the offending mask have been written, the overlap test fires on the next
plane, `masks_to_labels` raises the overlap error naming the offending
object's 0-based ordinal, and the error carries exactly the array state at
the raise: every pixel written for earlier objects and for earlier planes
of the same object stays set, later groups are never processed, and no
rollback of any kind happens. -/
theorem overlap_abort_no_rollback
    (dt : Dtype) (msh_rest : List Nat) (size_t size_c size_z : Nat)
    (ign : List String) (rois1 rois2 : List (List MaskShape))
    (m : MaskShape) (L0 L1 L2 : Arr5) (b : List (List Nat))
    (ps1 ps2 : List (Nat × Nat × Nat)) (it ic iz : Nat)
    (h1 : writeRois dt true size_t size_c size_z ign 0 rois1 L0 = .ok L1)
    (h2 : mask_to_binim_yx m = some b)
    (h3 : planesOf ign size_t size_c size_z m = ps1 ++ (it, ic, iz) :: ps2)
    (h4 : writePlanes dt true rois1.length m b ps1 L1 = .ok L2)
    (h5 : hasOverlap L2 it ic iz m b = true) :
    masks_to_labels dt (rois1 ++ [m] :: rois2)
        (size_t :: size_c :: size_z :: msh_rest) ign true L0
      = .error (.overlap rois1.length L2) := by
  show writeRois dt true size_t size_c size_z ign 0 (rois1 ++ [m] :: rois2)
      L0 = .error (.overlap rois1.length L2)
  rw [writeRois_append_ok dt true size_t size_c size_z ign rois1
    ([m] :: rois2) 0 L0 L1 h1]
  simp only [Nat.zero_add]
  have hm : writeMask dt true size_t size_c size_z ign rois1.length m L1
      = .error (.overlap rois1.length L2) := by
    simp only [writeMask, h2, h3]
    rw [writePlanes_append_ok dt true rois1.length m b ps1
      ((it, ic, iz) :: ps2) L1 L2 h4]
    simp [writePlanes, h5]
  simp only [writeRois, writeShapes, hm]

/-- Witness for C2: the spec's own overlap example.  Two same-plane 2x2
all-ones masks with rectangles [0:2, 0:2] and [1:3, 1:3] overlap at pixel
(1, 1); the write raises the overlap error for object ordinal 1 and the
error state holds exactly the first mask's pixels (1 at (0, 0), 0 at
(2, 2)). -/
theorem overlap_abort_no_rollback_witness :
    masks_to_labels .int64
        [[⟨none, none, none, 0, 0, 2, 2, [240], none⟩],
         [⟨none, none, none, 1, 1, 2, 2, [240], none⟩]]
        [1, 1, 1, 3, 3] ["T", "C", "Z"] true zeroArr
      = .error (.overlap 1
          (addPlane .int64 zeroArr 0 0 0
            ⟨none, none, none, 0, 0, 2, 2, [240], none⟩
            [[1, 1], [1, 1]] 1))
    ∧ addPlane .int64 zeroArr 0 0 0
        ⟨none, none, none, 0, 0, 2, 2, [240], none⟩
        [[1, 1], [1, 1]] 1 ⟨0, 0, 0, 0, 0⟩ = 1
    ∧ addPlane .int64 zeroArr 0 0 0
        ⟨none, none, none, 0, 0, 2, 2, [240], none⟩
        [[1, 1], [1, 1]] 1 ⟨0, 0, 0, 2, 2⟩ = 0 := by
  refine ⟨?_, by decide, by decide⟩
  exact overlap_abort_no_rollback .int64 [3, 3] 1 1 1 ["T", "C", "Z"]
    [[⟨none, none, none, 0, 0, 2, 2, [240], none⟩]] []
    ⟨none, none, none, 1, 1, 2, 2, [240], none⟩
    zeroArr
    (addPlane .int64 zeroArr 0 0 0
      ⟨none, none, none, 0, 0, 2, 2, [240], none⟩ [[1, 1], [1, 1]] 1)
    (addPlane .int64 zeroArr 0 0 0
      ⟨none, none, none, 0, 0, 2, 2, [240], none⟩ [[1, 1], [1, 1]] 1)
    [[1, 1], [1, 1]] [] [] 0 0 0
    rfl (by decide) (by decide) rfl (by decide)

/-- C1: in style "labeled" (64-bit integer labels), for a grouping of
pairwise non-overlapping well-formed masks, `masks_to_labels` succeeds and
produces the additive composite: every value lies in {0, ..., N}, the value
k + 1 appears exactly on the pixels of the k-th (0-based) ROI's masks
across their broadcast planes, and 0 appears exactly on pixels belonging to
no mask. -/
theorem labeled_compositing_correct
    (masks : List (List MaskShape)) (size_t size_c size_z : Nat)
    (msh_rest : List Nat) (ign : List String)
    (hN : (masks.length : Int) < 2 ^ 63)
    (hwf : ∀ shapes ∈ masks, ∀ m ∈ shapes, m.w * m.h ≤ 8 * m.bytes.length)
    (hdisj : (masks.flatMap id).Pairwise
      (pixDisjoint ign size_t size_c size_z)) :
    ∃ L, masks_to_labels .int64 masks
        (size_t :: size_c :: size_z :: msh_rest) ign true zeroArr = .ok L
      ∧ (∀ q : Ix5, 0 ≤ L q ∧ L q ≤ (masks.length : Int))
      ∧ (∀ k, k < masks.length → ∀ q : Ix5,
          (L q = (k : Int) + 1 ↔
            ∃ mm ∈ masks.getD k [], pixOf ign size_t size_c size_z mm q))
      ∧ (∀ q : Ix5, (L q = 0 ↔
          ∀ shapes ∈ masks, ∀ mm ∈ shapes,
            ¬ pixOf ign size_t size_c size_z mm q)) := by
  obtain ⟨L, heq, hout, hin, hrange⟩ :=
    writeRois_ok size_t size_c size_z ign (masks.length : Int) hN masks 0
      zeroArr (by simp) hwf hdisj
      (fun q shapes hs mm hm hp => rfl)
      (fun q => ⟨le_refl 0, by positivity⟩)
  refine ⟨L, heq, hrange, ?_, ?_⟩
  · intro k hk q
    constructor
    · intro hLq
      by_cases hall : ∀ shapes ∈ masks, ∀ mm ∈ shapes,
          ¬ pixOf ign size_t size_c size_z mm q
      · exfalso
        have h0 : L q = zeroArr q := hout q hall
        rw [hLq] at h0
        have hz : zeroArr q = 0 := rfl
        rw [hz] at h0
        omega
      · push_neg at hall
        obtain ⟨shapes, hs, mm, hm, hp⟩ := hall
        obtain ⟨k2, hk2, hEq⟩ := List.mem_iff_getElem.mp hs
        have hgd : masks.getD k2 [] = shapes := by
          rw [List.getD_eq_getElem?_getD, List.getElem?_eq_getElem hk2]
          simpa using hEq
        have hv := hin k2 hk2 mm (by rw [hgd]; exact hm) q hp
        have hkk : k = k2 := by
          rw [hLq] at hv
          have : ((0 : Nat) : Int) + (k2 : Int) + 1 = (k : Int) + 1 := by
            rw [← hv]
          push_cast at this
          omega
        subst hkk
        exact ⟨mm, by rw [hgd]; exact hm, hp⟩
    · rintro ⟨mm, hm, hp⟩
      have hv := hin k hk mm hm q hp
      rw [hv]
      push_cast
      ring
  · intro q
    constructor
    · intro hLq shapes hs mm hm hp
      obtain ⟨k2, hk2, hEq⟩ := List.mem_iff_getElem.mp hs
      have hgd : masks.getD k2 [] = shapes := by
        rw [List.getD_eq_getElem?_getD, List.getElem?_eq_getElem hk2]
        simpa using hEq
      have hv := hin k2 hk2 mm (by rw [hgd]; exact hm) q hp
      rw [hLq] at hv
      push_cast at hv
      omega
    · intro hall
      rw [hout q hall]
      rfl

/-- Witness for C1: two non-overlapping one-pixel masks in a 1x2 image;
the composite holds id 1 at the first ROI's pixel, id 2 at the second
ROI's pixel, and 0 elsewhere. -/
theorem labeled_compositing_correct_witness :
    ∃ L, masks_to_labels .int64
        [[⟨none, none, none, 0, 0, 1, 1, [128], none⟩],
         [⟨none, none, none, 1, 0, 1, 1, [128], none⟩]]
        [1, 1, 1, 1, 2] ["T", "C", "Z"] true zeroArr = .ok L
      ∧ L ⟨0, 0, 0, 0, 0⟩ = 1 ∧ L ⟨0, 0, 0, 0, 1⟩ = 2
      ∧ L ⟨0, 0, 0, 1, 0⟩ = 0 := by
  have hpw : (([[⟨none, none, none, 0, 0, 1, 1, [128], none⟩],
        [⟨none, none, none, 1, 0, 1, 1, [128], none⟩]] :
      List (List MaskShape)).flatMap id).Pairwise
      (pixDisjoint ["T", "C", "Z"] 1 1 1) := by
    apply List.Pairwise.cons
    · intro b hb
      have hbv : b = ⟨none, none, none, 1, 0, 1, 1, [128], none⟩ := by
        simpa using hb
      subst hbv
      intro q h1 h2
      have hx1 : q.x < 0 + 1 := h1.2.1.2.2.2
      have hx2 : 1 ≤ q.x := h2.2.1.2.2.1
      omega
    · exact List.pairwise_singleton _ _
  obtain ⟨L, heq, hrange, hin, hzero⟩ :=
    labeled_compositing_correct
      [[⟨none, none, none, 0, 0, 1, 1, [128], none⟩],
       [⟨none, none, none, 1, 0, 1, 1, [128], none⟩]]
      1 1 1 [1, 2] ["T", "C", "Z"] (by decide) (by decide) hpw
  refine ⟨L, heq, ?_, ?_, ?_⟩
  · have := (hin 0 (by decide) ⟨0, 0, 0, 0, 0⟩).mpr
      ⟨⟨none, none, none, 0, 0, 1, 1, [128], none⟩, by decide, by decide⟩
    simpa using this
  · have := (hin 1 (by decide) ⟨0, 0, 0, 0, 1⟩).mpr
      ⟨⟨none, none, none, 1, 0, 1, 1, [128], none⟩, by decide, by decide⟩
    simpa using this
  · exact (hzero ⟨0, 0, 0, 1, 0⟩).mpr (by decide)

end OmeroZarr
